import Mathlib

/-!
# Verification of the barq-graphdb storage and query engine

Shallow embedding of the core of the `barq-graphdb` repository
(`src/storage.rs`, `src/vector.rs`, `src/vector/hnsw.rs`, `src/hybrid.rs`,
`src/graph.rs`, `src/agent.rs`, `src/lib.rs`) together with theorems about
the write-ahead-log replay protocol, the in-memory indexes, BFS traversal,
the hybrid scoring algorithm and the two vector-index backends.

Modelling conventions:
* `NodeId` (Rust `u64`) is modelled as `Nat`; no arithmetic that could
  overflow is performed on node ids by the engine.
* `f32` payloads that the storage layer merely stores and round-trips
  (embedding coordinates, scores) are modelled as exact rationals `ℚ`,
  which keeps the storage model fully computable; the engine only ever
  inspects them through `is_empty` / `len` on the containing vector.
* Distance and score arithmetic performed by `vector.rs` / `hybrid.rs`
  (`sqrt`, clamped similarity) is modelled over `ℝ` with exact real
  arithmetic.
* Rust `HashMap`s are modelled as association lists with
  insert-or-replace semantics (`mlookup` / `minsert`); iteration order of
  a Rust `HashMap` is unspecified, the association list fixes one order.
-/

/-- Node identifier (Rust `u64`). -/
abbrev NodeId := Nat

/-- `Edge` from `src/lib.rs`: a directed labelled edge. -/
structure GEdge where
  efrom : NodeId
  eto : NodeId
  edgeType : String
  deriving DecidableEq, Repr

/-- `Node` from `src/lib.rs`. -/
structure GNode where
  id : NodeId
  label : String
  embedding : List ℚ
  edges : List GEdge
  timestamp : Nat
  agentId : Option Nat
  ruleTags : List String
  deriving DecidableEq, Repr

/-- `DecisionRecord` from `src/agent.rs`. -/
structure DecisionRecord where
  id : Nat
  agentId : Nat
  createdAt : Nat
  rootNode : NodeId
  path : List NodeId
  score : ℚ
  notes : Option String
  deriving DecidableEq, Repr

/-- `WalRecord` from `src/storage.rs`: the four WAL record kinds. -/
inductive WalRecord where
  | node (data : GNode)
  | edge (efrom : NodeId) (eto : NodeId) (edgeType : String)
  | embedding (id : NodeId) (vec : List ℚ)
  | decision (data : DecisionRecord)
  deriving DecidableEq, Repr

/-- Association-list lookup, modelling `HashMap::get`. -/
def mlookup {α : Type} : List (Nat × α) → Nat → Option α
  | [], _ => none
  | (k, v) :: rest, key => if k = key then some v else mlookup rest key

/-- Association-list insert-or-replace, modelling `HashMap::insert`. -/
def minsert {α : Type} : List (Nat × α) → Nat → α → List (Nat × α)
  | [], key, val => [(key, val)]
  | (k, v) :: rest, key, val =>
      if k = key then (k, val) :: rest else (k, v) :: minsert rest key val

/-- Modelling `HashMap::contains_key`. -/
def mcontains {α : Type} (m : List (Nat × α)) (key : Nat) : Bool :=
  (mlookup m key).isSome

/-- Modelling `map.entry(key).or_default().push(x)` on a
`HashMap<NodeId, Vec<NodeId>>`. -/
def mpush (m : List (Nat × List Nat)) (key : Nat) (x : Nat) :
    List (Nat × List Nat) :=
  match mlookup m key with
  | some l => minsert m key (l ++ [x])
  | none => m ++ [(key, [x])]

/-- Modelling `map.entry(key).or_default()` creating an empty list entry. -/
def mensure (m : List (Nat × List Nat)) (key : Nat) : List (Nat × List Nat) :=
  match mlookup m key with
  | some _ => m
  | none => m ++ [(key, [])]

/-- State reconstructed by `BarqGraphDb::load_wal` (src/storage.rs): node
table, adjacency index, vector map and decision journal. -/
structure ReplayState where
  nodes : List (NodeId × GNode)
  adjacency : List (NodeId × List NodeId)
  vectors : List (NodeId × List ℚ)
  decisions : List DecisionRecord
  deriving DecidableEq, Repr

/-- The empty replay state (a missing `wal.log` / fresh database). -/
def ReplayState.empty : ReplayState := ⟨[], [], [], []⟩

/-- Rebuilding adjacency from a node record's embedded edges:
`adjacency.entry(edge.from).or_default().push(edge.to);
adjacency.entry(edge.to).or_default();` for each edge in order
(src/storage.rs, `load_wal` and `append_node`). -/
def adjAddEdges (adj : List (NodeId × List NodeId)) (edges : List GEdge) :
    List (NodeId × List NodeId) :=
  edges.foldl (fun a e => mensure (mpush a e.efrom e.eto) e.eto) adj

/-- Applying one parsed WAL record to the replay state, after the `match`
in `BarqGraphDb::load_wal` (src/storage.rs lines 241-268). -/
def applyRecord (s : ReplayState) : WalRecord → ReplayState
  | .node data =>
      { s with
        adjacency := adjAddEdges s.adjacency data.edges
        vectors :=
          if data.embedding = [] then s.vectors
          else minsert s.vectors data.id data.embedding
        nodes := minsert s.nodes data.id data }
  | .edge efrom eto _ =>
      { s with adjacency := mensure (mpush s.adjacency efrom eto) eto }
  | .embedding id vec =>
      { s with
        vectors := minsert s.vectors id vec
        nodes :=
          match mlookup s.nodes id with
          | some n => minsert s.nodes id { n with embedding := vec }
          | none => s.nodes }
  | .decision data => { s with decisions := s.decisions ++ [data] }

/-- Replay of a list of parsed WAL records from the empty state. -/
def loadWal (records : List WalRecord) : ReplayState :=
  records.foldl applyRecord ReplayState.empty

/-- The parse outcome of one physical line of `wal.log`: blank/whitespace
(skipped), a successfully parsed record, or a line on which
`serde_json::from_str` fails. -/
inductive WalLine where
  | blank
  | good (r : WalRecord)
  | bad
  deriving DecidableEq, Repr

/-- Line-by-line replay as in `BarqGraphDb::load_wal` (src/storage.rs lines
229-269): blank lines are skipped, a parse failure terminates replay with a
corruption error (the `?` on `serde_json::from_str`), each parsed record is
applied in order. -/
def loadWalLinesAux (s : ReplayState) : List WalLine → Except Unit ReplayState
  | [] => Except.ok s
  | WalLine.blank :: rest => loadWalLinesAux s rest
  | WalLine.good r :: rest => loadWalLinesAux (applyRecord s r) rest
  | WalLine.bad :: _ => Except.error ()

/-- Replay of the raw lines of `wal.log` from the empty state. -/
def loadWalLines (lines : List WalLine) : Except Unit ReplayState :=
  loadWalLinesAux ReplayState.empty lines

/-- The records carried by the parseable lines of a WAL file. -/
def goodRecords : List WalLine → List WalRecord
  | [] => []
  | WalLine.blank :: rest => goodRecords rest
  | WalLine.good r :: rest => r :: goodRecords rest
  | WalLine.bad :: rest => goodRecords rest

/-- The post-replay vector-index population performed by
`BarqGraphDb::open` (src/storage.rs lines 165-177): every entry of the
replayed vector map is inserted, then every node whose embedding is
non-empty and whose id is not yet present is inserted. -/
def openVectorIndex (s : ReplayState) : List (NodeId × List ℚ) :=
  let base := s.vectors.foldl (fun idx p => minsert idx p.1 p.2) []
  s.nodes.foldl
    (fun idx p =>
      if p.2.embedding ≠ [] ∧ mcontains idx p.1 = false then
        minsert idx p.1 p.2.embedding
      else idx)
    base

/-- In-memory state of an open `BarqGraphDb` engine (src/storage.rs).  The
vector index is modelled by its logical node-to-vector map (the exact
`LinearVectorIndex` backend of src/vector.rs); `batchQueue` models the
`BatchQueue` staging buffer (`Some` iff `async_indexing` is enabled);
`wal` is the durable content of `wal.log` as parsed records. -/
structure Db where
  nodes : List (NodeId × GNode)
  adjacency : List (NodeId × List NodeId)
  vectors : List (NodeId × List ℚ)
  batchQueue : Option (List GNode)
  decisions : List DecisionRecord
  wal : List WalRecord
  syncWrites : Bool
  deriving DecidableEq, Repr

/-- A fresh engine opened on an empty directory with synchronous indexing
and synchronous writes (`DbOptions`: `sync_writes = true`,
`async_indexing = false`). -/
def Db.fresh : Db := ⟨[], [], [], none, [], [], true⟩

/-- Where, if anywhere, the filesystem fails during one WAL append. -/
inductive WalFail where
  | ok
  | atWrite
  | atFlush
  deriving DecidableEq, Repr

/-- The WAL append-and-flush prologue shared by `append_node`, `add_edge`
and `set_embedding` (src/storage.rs): serialize (total for these types),
`writeln!` the record, then flush only when `sync_writes` is set.  Returns
the state after the step and whether the write path succeeded; on failure
the caller returns early (`?`) without touching the in-memory indexes. -/
def walAppendStep (f : WalFail) (db : Db) (r : WalRecord) : Db × Bool :=
  match f with
  | .atWrite => (db, false)
  | .atFlush =>
      if db.syncWrites then ({ db with wal := db.wal ++ [r] }, false)
      else ({ db with wal := db.wal ++ [r] }, true)
  | .ok => ({ db with wal := db.wal ++ [r] }, true)

/-- As `walAppendStep`, but flushing unconditionally: `record_decision`
(src/storage.rs line 791) flushes regardless of `sync_writes`. -/
def walAppendStepAlwaysFlush (f : WalFail) (db : Db) (r : WalRecord) :
    Db × Bool :=
  match f with
  | .atWrite => (db, false)
  | .atFlush => ({ db with wal := db.wal ++ [r] }, false)
  | .ok => ({ db with wal := db.wal ++ [r] }, true)

/-- The vector-index update of a write path: push onto the staging queue
when async indexing is enabled, otherwise insert synchronously
(src/storage.rs lines 327-334 and 566-573). -/
def dbIndexInsert (db : Db) (n : GNode) : Db :=
  match db.batchQueue with
  | some q => { db with batchQueue := some (q ++ [n]) }
  | none => { db with vectors := minsert db.vectors n.id n.embedding }

/-- `BarqGraphDb::append_node` (src/storage.rs lines 306-340) with an
explicit filesystem-failure point. -/
def appendNodeF (f : WalFail) (db : Db) (n : GNode) : Db × Bool :=
  match walAppendStep f db (WalRecord.node n) with
  | (db1, false) => (db1, false)
  | (db1, true) =>
      let db2 := { db1 with adjacency := adjAddEdges db1.adjacency n.edges }
      let db3 := if n.embedding = [] then db2 else dbIndexInsert db2 n
      ({ db3 with nodes := minsert db3.nodes n.id n }, true)

/-- `BarqGraphDb::add_edge` (src/storage.rs lines 407-440) with an explicit
filesystem-failure point. -/
def addEdgeF (f : WalFail) (db : Db) (efrom eto : NodeId) (ty : String) :
    Db × Bool :=
  match walAppendStep f db (WalRecord.edge efrom eto ty) with
  | (db1, false) => (db1, false)
  | (db1, true) =>
      let db2 := { db1 with adjacency := mensure (mpush db1.adjacency efrom eto) eto }
      let db3 :=
        match mlookup db2.nodes efrom with
        | some n =>
            { db2 with
              nodes := minsert db2.nodes efrom
                { n with edges := n.edges ++ [⟨efrom, eto, ty⟩] } }
        | none => db2
      (db3, true)

/-- The dummy node `set_embedding` pushes onto the staging queue when async
indexing is enabled: `Node::new(id, String::new())` with the embedding set
(timestamp modelled as 0). -/
def dummyNode (id : NodeId) (v : List ℚ) : GNode :=
  { id := id, label := "", embedding := v, edges := [], timestamp := 0,
    agentId := none, ruleTags := [] }

/-- `BarqGraphDb::set_embedding` (src/storage.rs lines 547-581) with an
explicit filesystem-failure point.  Note that unlike `append_node` the
vector index is updated even for an empty embedding. -/
def setEmbeddingF (f : WalFail) (db : Db) (id : NodeId) (v : List ℚ) :
    Db × Bool :=
  match walAppendStep f db (WalRecord.embedding id v) with
  | (db1, false) => (db1, false)
  | (db1, true) =>
      let db2 := dbIndexInsert db1 (dummyNode id v)
      let db3 :=
        match mlookup db2.nodes id with
        | some n => { db2 with nodes := minsert db2.nodes id { n with embedding := v } }
        | none => db2
      (db3, true)

/-- `BarqGraphDb::record_decision` (src/storage.rs lines 778-797) with an
explicit filesystem-failure point. -/
def recordDecisionF (f : WalFail) (db : Db) (d : DecisionRecord) : Db × Bool :=
  match walAppendStepAlwaysFlush f db (WalRecord.decision d) with
  | (db1, false) => (db1, false)
  | (db1, true) => ({ db1 with decisions := db1.decisions ++ [d] }, true)

/-- One write operation on the engine facade. -/
inductive WriteOp where
  | node (n : GNode)
  | edge (efrom eto : NodeId) (ty : String)
  | embedding (id : NodeId) (vec : List ℚ)
  | decision (d : DecisionRecord)
  deriving DecidableEq, Repr

/-- Dispatch of one write with an explicit failure point. -/
def applyWriteF (f : WalFail) (db : Db) : WriteOp → Db × Bool
  | .node n => appendNodeF f db n
  | .edge efrom eto ty => addEdgeF f db efrom eto ty
  | .embedding id vec => setEmbeddingF f db id vec
  | .decision d => recordDecisionF f db d

/-- A successful write (no filesystem failure). -/
def applyWrite (db : Db) (op : WriteOp) : Db := (applyWriteF .ok db op).1

/-- A sequence of successful writes applied to an engine. -/
def applyWrites (db : Db) (ops : List WriteOp) : Db := ops.foldl applyWrite db

/-- Left-biased choice on `Option`, used to state latest-record-wins
characterisations. -/
def oor {α : Type} : Option α → Option α → Option α
  | some v, _ => some v
  | none, b => b

/-- The vector contributed to the replayed vector map by one WAL record for
a given node id: an `embedding` record always contributes its vector, a
`node` record contributes its embedding only when non-empty
(src/storage.rs `load_wal`). -/
def relevantVec : WalRecord → NodeId → Option (List ℚ)
  | .node data, id =>
      if data.id = id ∧ data.embedding ≠ [] then some data.embedding else none
  | .embedding i v, id => if i = id then some v else none
  | _, _ => none

/-- The vector of the latest record (among `embedding` records and `node`
records with non-empty embedding) for a node id. -/
def authoritativeVec (records : List WalRecord) (id : NodeId) :
    Option (List ℚ) :=
  records.reverse.findSome? (fun r => relevantVec r id)

/-- The vector of the latest `embedding` record for a node id. -/
def latestEmbOnly (records : List WalRecord) (id : NodeId) : Option (List ℚ) :=
  records.reverse.findSome? (fun r =>
    match r with
    | WalRecord.embedding i v => if i = id then some v else none
    | _ => none)

/-- The embedding carried by the latest `node` record for a node id. -/
def latestNodeEmb (records : List WalRecord) (id : NodeId) : Option (List ℚ) :=
  records.reverse.findSome? (fun r =>
    match r with
    | WalRecord.node data => if data.id = id then some data.embedding else none
    | _ => none)

/-- The authoritative embedding in the words of the specification: the
vector of the latest `embedding` record, or, if no embedding record exists
for the id, the embedding of the latest `node` record. -/
def specAuthoritativeC4 (records : List WalRecord) (id : NodeId) :
    Option (List ℚ) :=
  oor (latestEmbOnly records id) (latestNodeEmb records id)

/-- Whether a write op makes the engine touch the vector index for `id`
(synchronous path): `set_embedding` always does, `append_node` only for a
non-empty embedding (src/storage.rs lines 327-334 and 566-573). -/
def insertsVecOp : WriteOp → NodeId → Prop
  | .node n, id => n.id = id ∧ n.embedding ≠ []
  | .embedding i _, id => i = id
  | _, _ => False

/-- Whether, in the words of the specification, the vector index should
contain an entry for `id` after the writes `ops`: the latest embedding
record carried a non-empty vector, or, absent any embedding record, the
latest node record carried a non-empty embedding. -/
def specC5Contains (ops : List WriteOp) (id : NodeId) : Prop :=
  match ops.reverse.findSome? (fun op =>
    match op with
    | WriteOp.embedding i v => if i = id then some v else none
    | _ => none) with
  | some v => v ≠ []
  | none =>
      match ops.reverse.findSome? (fun op =>
        match op with
        | WriteOp.node n => if n.id = id then some n.embedding else none
        | _ => none) with
      | some e => e ≠ []
      | none => False

/-- A node with its in-memory-only `edges` field cleared; used to compare
node tables disregarding the edge sequences. -/
def eraseEdges (n : GNode) : GNode := { n with edges := [] }

/-- A node table with every node's `edges` field cleared. -/
def eraseMap (m : List (NodeId × GNode)) : List (NodeId × GNode) :=
  m.map (fun p => (p.1, eraseEdges p.2))

/-- The inner neighbor loop of `bfs_hops` (src/storage.rs lines 504-512):
for each neighbor in stored order, if unvisited, mark visited, append to
the result and enqueue it at depth `depth + 1`.  The pair carries the
visited/result list (one list: the Rust `visited` set and `result` vec
always hold the same elements, in insertion order) and the entries pushed
to the queue. -/
def bfsVisit (depth : Nat) (p : List NodeId × List (NodeId × Nat))
    (nbs : List NodeId) : List NodeId × List (NodeId × Nat) :=
  nbs.foldl
    (fun p nb =>
      if nb ∈ p.1 then p else (p.1 ++ [nb], p.2 ++ [(nb, depth + 1)]))
    p

/-- The `while let Some((current, depth)) = queue.pop_front()` loop of
`bfs_hops` (src/storage.rs lines 497-513).  `fuel` bounds the number of
loop iterations; every iteration pops one queue entry and entries are
pushed only for newly visited nodes, so the number of iterations never
exceeds one plus the number of adjacency-list targets, and the fuel chosen
by `bfs_hops` below is never exhausted. -/
def bfsAux (adj : List (NodeId × List NodeId)) (maxHops : Nat) :
    Nat → List (NodeId × Nat) → List NodeId → List NodeId
  | 0, _, visited => visited
  | _ + 1, [], visited => visited
  | fuel + 1, (current, depth) :: rest, visited =>
      if maxHops ≤ depth then bfsAux adj maxHops fuel rest visited
      else
        match mlookup adj current with
        | none => bfsAux adj maxHops fuel rest visited
        | some nbs =>
            let step := bfsVisit depth (visited, []) nbs
            bfsAux adj maxHops fuel (rest ++ step.2) step.1

/-- Total number of adjacency-list targets, used to size the BFS fuel. -/
def totalAdjLen (adj : List (NodeId × List NodeId)) : Nat :=
  adj.foldl (fun acc p => acc + p.2.length) 0

/-- `BarqGraphDb::bfs_hops` (src/storage.rs lines 480-516): empty when the
start is known to neither the node table nor the adjacency index,
otherwise BFS from `start` at depth 0 with expansion stopping at
`maxHops`. -/
def bfs_hops (nodes : List (NodeId × GNode))
    (adj : List (NodeId × List NodeId)) (start : NodeId) (maxHops : Nat) :
    List NodeId :=
  if mcontains nodes start = false ∧ mcontains adj start = false then []
  else bfsAux adj maxHops (2 + totalAdjLen adj) [(start, 0)] [start]

/-- `start` reaches `x` by a directed path of exactly `n` adjacency-list
edges. -/
inductive ReachK (adj : List (NodeId × List NodeId)) (start : NodeId) :
    NodeId → Nat → Prop
  | zero : ReachK adj start start 0
  | succ {u v : NodeId} {l : List NodeId} {n : Nat} :
      ReachK adj start u n → mlookup adj u = some l → v ∈ l →
      ReachK adj start v (n + 1)

/-- The BFS loop of `hybrid_query` (src/storage.rs lines 687-705), which
additionally records per node the hop count and the first BFS path.  The
`info` association list models `node_info` (and doubles as the `visited`
set: the Rust code inserts into both together). -/
def hybridBfsAux (adj : List (NodeId × List NodeId)) (maxHops : Nat) :
    Nat → List (NodeId × Nat × List NodeId) →
    List (NodeId × Nat × List NodeId) → List (NodeId × Nat × List NodeId)
  | 0, _, info => info
  | _ + 1, [], info => info
  | fuel + 1, (current, depth, path) :: rest, info =>
      if maxHops ≤ depth then hybridBfsAux adj maxHops fuel rest info
      else
        match mlookup adj current with
        | none => hybridBfsAux adj maxHops fuel rest info
        | some nbs =>
            let step := nbs.foldl
              (fun (p : List (NodeId × Nat × List NodeId) ×
                    List (NodeId × Nat × List NodeId)) nb =>
                if mcontains p.1 nb then p
                else (p.1 ++ [(nb, depth + 1, path ++ [nb])],
                      p.2 ++ [(nb, depth + 1, path ++ [nb])]))
              (info, [])
            hybridBfsAux adj maxHops fuel (rest ++ step.2) step.1

/-- The node-info table computed by the BFS phase of `hybrid_query`
starting from `start` (assumed known). -/
def hybridBfs (adj : List (NodeId × List NodeId)) (start : NodeId)
    (maxHops : Nat) : List (NodeId × Nat × List NodeId) :=
  hybridBfsAux adj maxHops (2 + totalAdjLen adj) [(start, 0, [start])]
    [(start, 0, [start])]

/-- `l2_distance` (src/vector.rs lines 64-77): square root of the sum of
squared coordinate differences over the zipped vectors. -/
noncomputable def l2_distance (a b : List ℝ) : ℝ :=
  Real.sqrt (((a.zip b).map (fun p => (p.1 - p.2) ^ 2)).sum)

/-- `HybridParams` (src/hybrid.rs). -/
structure HybridParams where
  alpha : ℝ
  beta : ℝ

/-- `HybridResult` (src/hybrid.rs). -/
structure HybridResult where
  id : NodeId
  score : ℝ
  vectorDistance : ℝ
  graphDistance : Nat
  path : List NodeId

/-- `compute_hybrid_score` (src/hybrid.rs lines 91-100):
`alpha * (1 - min(vec_dist, 1)) + beta * (1 / (1 + graph_dist))`. -/
noncomputable def compute_hybrid_score (vecDist : ℝ) (graphDist : Nat)
    (params : HybridParams) : ℝ :=
  params.alpha * (1 - min vecDist 1) +
    params.beta * (1 / (1 + (graphDist : ℝ)))

/-- Embedding coordinates of the storage model cast to `ℝ` for distance
arithmetic. -/
def castVec (v : List ℚ) : List ℝ := v.map (fun q => (q : ℝ))

/-- `BarqGraphDb::hybrid_query` (src/storage.rs lines 660-750): BFS with
path tracking, per-visited-node score for nodes carrying an embedding of
the query's dimension, sort by descending score, truncate to `k`.  The
candidate pass iterates `node_info` in insertion order (the Rust `HashMap`
iteration order is unspecified). -/
noncomputable def hybridQuery (nodes : List (NodeId × GNode))
    (adj : List (NodeId × List NodeId)) (query : List ℝ) (start : NodeId)
    (maxHops k : Nat) (params : HybridParams) : List HybridResult :=
  if mcontains nodes start = false ∧ mcontains adj start = false then []
  else
    let info := hybridBfs adj start maxHops
    let results := info.filterMap
      (fun p =>
        match mlookup nodes p.1 with
        | none => none
        | some node =>
            if node.embedding = [] then none
            else if node.embedding.length ≠ query.length then none
            else
              let vecDist := l2_distance query (castVec node.embedding)
              some ⟨p.1, compute_hybrid_score vecDist p.2.1 params, vecDist,
                    p.2.1, p.2.2⟩)
    (results.insertionSort (fun a b => b.score ≤ a.score)).take k

/-- `LinearVectorIndex::knn` (src/vector.rs lines 142-157): keep the stored
vectors whose length equals the query's, pair each id with its L2 distance
to the query, sort ascending by distance (the Rust `sort_by` is a stable
sort; the model iterates the stored map in association-list order), and
truncate to `k`. -/
noncomputable def linearKnn (vectors : List (NodeId × List ℝ))
    (query : List ℝ) (k : Nat) : List (NodeId × ℝ) :=
  let distances := (vectors.filter (fun p => p.2.length = query.length)).map
    (fun p => (p.1, l2_distance query p.2))
  (distances.insertionSort (fun a b => a.2 ≤ b.2)).take k

/-- `HnswVectorIndex` (src/vector/hnsw.rs): the physical proximity-graph
points (the `hnsw_rs` structure is append-only, so a list of
internal-id/vector pairs records exactly what was ever inserted), the
logical-to-physical and physical-to-logical maps, and the internal-id
counter (`AtomicUsize::new(1)`). -/
structure HnswState where
  entries : List (Nat × List ℚ)
  nodeToInternal : List (NodeId × Nat)
  internalToNode : List (Nat × NodeId)
  nextInternalId : Nat
  deriving DecidableEq, Repr

/-- `HnswVectorIndex::new` (src/vector/hnsw.rs lines 24-42). -/
def HnswState.new : HnswState := ⟨[], [], [], 1⟩

/-- `HnswVectorIndex::insert` (src/vector/hnsw.rs lines 46-58): mint a
fresh internal id, insert the vector into the proximity graph under it,
and publish it as the current internal id for the node. -/
def hnswInsert (s : HnswState) (id : NodeId) (v : List ℚ) : HnswState :=
  let internal := s.nextInternalId
  { entries := s.entries ++ [(internal, v)]
    nodeToInternal := minsert s.nodeToInternal id internal
    internalToNode := minsert s.internalToNode internal id
    nextInternalId := internal + 1 }

/-- `HnswVectorIndex::len` (src/vector/hnsw.rs lines 96-98): the size of
the logical `node_to_internal` map. -/
def hnswLen (s : HnswState) : Nat := s.nodeToInternal.length

/-- The candidate loop of `HnswVectorIndex::knn` (src/vector/hnsw.rs lines
71-91): for each candidate `(internal, distance)` in order, resolve the
logical node id, keep the candidate only if the node's current internal id
equals the candidate's, deduplicate by node id via `seen`, and stop once
`k` results are collected. -/
def hnswKnnFilter (s : HnswState) (k : Nat) :
    List (Nat × ℚ) → List NodeId → List (NodeId × ℚ) → List (NodeId × ℚ)
  | [], _, acc => acc
  | (internal, d) :: rest, seen, acc =>
      match mlookup s.internalToNode internal with
      | none => hnswKnnFilter s k rest seen acc
      | some nodeId =>
          match mlookup s.nodeToInternal nodeId with
          | none => hnswKnnFilter s k rest seen acc
          | some current =>
              if current = internal ∧ nodeId ∉ seen then
                let acc' := acc ++ [(nodeId, d)]
                if k ≤ acc'.length then acc'
                else hnswKnnFilter s k rest (seen ++ [nodeId]) acc'
              else hnswKnnFilter s k rest seen acc

/-- Modelled from the spec: `HnswVectorIndex::knn` calls
`self.index.search(query, fetch_k, ef_search)` on the external `hnsw_rs`
proximity graph, which is not part of this repository.  Per §4.4b of the
specification the search returns candidates drawn from the inserted
entries together with their distances to the query; the candidate list is
therefore taken as a parameter here, and theorems assume each candidate
reports an inserted entry with its true distance.  The filtering pipeline
applied to the candidates is the code of src/vector/hnsw.rs lines 60-94. -/
def hnswKnn (s : HnswState) (candidates : List (Nat × ℚ)) (k : Nat) :
    List (NodeId × ℚ) :=
  hnswKnnFilter s k candidates [] []

/-- Internal-id bound invariant of `HnswVectorIndex`: every physical entry
was minted by a previous `fetch_add` on the counter, so its internal id is
below the counter's current value. -/
def HnswWF (s : HnswState) : Prop :=
  ∀ p ∈ s.entries, p.1 < s.nextInternalId

/-- The association-list keys (used to state no-duplicate-key facts). -/
def mkeys {α : Type} (m : List (Nat × α)) : List Nat := m.map Prod.fst

/-- The WAL record serialized by one successful write
(src/storage.rs lines 307, 408, 548, 779). -/
def toRecord : WriteOp → WalRecord
  | .node n => WalRecord.node n
  | .edge efrom eto ty => WalRecord.edge efrom eto ty
  | .embedding id vec => WalRecord.embedding id vec
  | .decision d => WalRecord.decision d

/-- Simulation invariant tying a live engine to the replay of its own WAL:
synchronous indexing, and the replayed adjacency, vector map and decision
journal coincide with the live ones while the node tables coincide up to
the in-memory-only `edges` fields. -/
def SimInv (db : Db) : Prop :=
  db.batchQueue = none ∧
  (loadWal db.wal).adjacency = db.adjacency ∧
  (loadWal db.wal).vectors = db.vectors ∧
  (loadWal db.wal).decisions = db.decisions ∧
  eraseMap (loadWal db.wal).nodes = eraseMap db.nodes

theorem mlookup_minsert {α : Type} (m : List (Nat × α)) (k k' : Nat) (v : α) :
    mlookup (minsert m k v) k' = if k = k' then some v else mlookup m k' := by
  induction m with
  | nil => by_cases h : k = k' <;> simp [minsert, mlookup, h]
  | cons hd tl ih =>
      obtain ⟨a, b⟩ := hd
      by_cases h1 : a = k
      · subst h1
        by_cases h2 : a = k' <;> simp [minsert, mlookup, h2]
      · by_cases h2 : a = k'
        · subst h2
          have : ¬k = a := fun h => h1 h.symm
          simp [minsert, mlookup, h1, this]
        · simp [minsert, mlookup, h1, h2, ih]

theorem mlookup_minsert_self {α : Type} (m : List (Nat × α)) (k : Nat) (v : α) :
    mlookup (minsert m k v) k = some v := by
  simp [mlookup_minsert]

theorem mlookup_minsert_ne {α : Type} (m : List (Nat × α)) (k k' : Nat) (v : α)
    (h : k ≠ k') : mlookup (minsert m k v) k' = mlookup m k' := by
  simp [mlookup_minsert, h]

theorem mlookup_append {α : Type} (m₁ m₂ : List (Nat × α)) (k : Nat) :
    mlookup (m₁ ++ m₂) k =
      match mlookup m₁ k with
      | some v => some v
      | none => mlookup m₂ k := by
  induction m₁ with
  | nil => simp [mlookup]
  | cons hd tl ih =>
      obtain ⟨a, b⟩ := hd
      by_cases h : a = k <;> simp [mlookup, h, ih]

theorem mlookup_mpush (m : List (Nat × List Nat)) (k k' : Nat) (x : Nat) :
    mlookup (mpush m k x) k' =
      if k = k' then some ((mlookup m k).getD [] ++ [x]) else mlookup m k' := by
  unfold mpush
  cases hm : mlookup m k with
  | some l =>
      by_cases h : k = k'
      · subst h; simp [mlookup_minsert_self, hm]
      · simp [mlookup_minsert_ne _ _ _ _ h, h]
  | none =>
      by_cases h : k = k'
      · subst h; simp [mlookup_append, hm, mlookup]
      · simp [mlookup_append, h]
        cases hm' : mlookup m k' with
        | some l => simp
        | none => simp [mlookup, h]

theorem mlookup_mensure (m : List (Nat × List Nat)) (k k' : Nat) :
    mlookup (mensure m k) k' =
      if k = k' then some ((mlookup m k).getD []) else mlookup m k' := by
  unfold mensure
  cases hm : mlookup m k with
  | some l =>
      by_cases h : k = k'
      · subst h; simp [hm]
      · simp [h]
  | none =>
      by_cases h : k = k'
      · subst h; simp [mlookup_append, hm, mlookup]
      · simp [mlookup_append, h]
        cases hm' : mlookup m k' with
        | some l => simp
        | none => simp [mlookup, h]

theorem mlookup_eq_of_minsert_eq {α : Type} (m : List (Nat × α)) (k : Nat)
    (v : α) (h : mlookup m k = some v) : minsert m k v = m := by
  induction m with
  | nil => simp [mlookup] at h
  | cons hd tl ih =>
      obtain ⟨a, b⟩ := hd
      by_cases h1 : a = k
      · subst h1
        simp [mlookup] at h
        simp [minsert, h]
      · simp [mlookup, h1] at h
        simp [minsert, h1, ih h]

theorem mem_minsert {α : Type} {m : List (Nat × α)} {k : Nat} {v : α}
    {p : Nat × α} (h : p ∈ minsert m k v) : p ∈ m ∨ p = (k, v) := by
  induction m with
  | nil => simpa [minsert] using h
  | cons hd tl ih =>
      obtain ⟨a, b⟩ := hd
      by_cases h1 : a = k
      · subst h1
        simp [minsert] at h
        rcases h with h | h
        · right; simp [h]
        · left; simp [h]
      · simp [minsert, h1] at h
        rcases h with h | h
        · left; simp [h]
        · rcases ih h with h' | h'
          · left; simp [h']
          · right; exact h'

theorem mcontains_minsert {α : Type} (m : List (Nat × α)) (k k' : Nat)
    (v : α) :
    mcontains (minsert m k v) k' = (decide (k = k') || mcontains m k') := by
  by_cases h : k = k' <;> simp [mcontains, mlookup_minsert, h]

theorem mcontains_minsert_self {α : Type} (m : List (Nat × α)) (k : Nat)
    (v : α) : mcontains (minsert m k v) k = true := by
  simp [mcontains_minsert]

theorem mcontains_minsert_of {α : Type} {m : List (Nat × α)} {k' : Nat}
    (k : Nat) (v : α) (h : mcontains m k' = true) :
    mcontains (minsert m k v) k' = true := by
  simp [mcontains_minsert, h]

theorem mkeys_minsert {α : Type} (m : List (Nat × α)) (k : Nat) (v : α) :
    mkeys (minsert m k v) =
      if mcontains m k = true then mkeys m else mkeys m ++ [k] := by
  induction m with
  | nil => simp [minsert, mkeys, mcontains, mlookup]
  | cons hd tl ih =>
      obtain ⟨a, b⟩ := hd
      by_cases h1 : a = k
      · subst h1; simp [minsert, mkeys, mcontains, mlookup]
      · have h1' : ¬a = k := h1
        simp only [minsert, if_neg h1', mkeys, List.map_cons]
        simp only [mkeys] at ih
        rw [ih]
        by_cases h2 : mcontains tl k = true
        · simp [mcontains, mlookup, h1, h2]
          simp [mcontains] at h2
          simp [h2]
        · simp [mcontains, mlookup, h1] at h2 ⊢
          simp [h2]

theorem mcontains_of_mem_mkeys {α : Type} {m : List (Nat × α)} {a : Nat}
    (ha : a ∈ mkeys m) : mcontains m a = true := by
  induction m with
  | nil => simp [mkeys] at ha
  | cons hd tl ih =>
      obtain ⟨x, y⟩ := hd
      simp [mkeys] at ha
      rcases ha with ha | ha
      · simp [mcontains, mlookup, ha]
      · by_cases hk : x = a
        · simp [mcontains, mlookup, hk]
        · have := ih (by simpa [mkeys] using ha)
          simpa [mcontains, mlookup, hk] using this

theorem mkeys_nodup_minsert {α : Type} {m : List (Nat × α)} (k : Nat) (v : α)
    (h : (mkeys m).Nodup) : (mkeys (minsert m k v)).Nodup := by
  rw [mkeys_minsert]
  by_cases hc : mcontains m k = true
  · simp [hc, h]
  · simp [hc]
    refine List.Nodup.append h (by simp) ?_
    intro a ha hb
    simp at hb
    subst hb
    exact absurd (mcontains_of_mem_mkeys ha) (by simp [hc])

theorem minsert_append_fresh {α : Type} {m : List (Nat × α)} {k : Nat}
    (v : α) (h : mcontains m k = false) : minsert m k v = m ++ [(k, v)] := by
  induction m with
  | nil => simp [minsert]
  | cons hd tl ih =>
      obtain ⟨a, b⟩ := hd
      simp [mcontains, mlookup] at h
      by_cases h1 : a = k
      · subst h1; simp at h
      · rw [if_neg h1] at h
        simp [minsert, h1]
        exact ih (by simp [mcontains, h])

theorem minsert_length {α : Type} (m : List (Nat × α)) (k : Nat) (v : α) :
    (minsert m k v).length =
      if mcontains m k = true then m.length else m.length + 1 := by
  induction m with
  | nil => simp [minsert, mcontains, mlookup]
  | cons hd tl ih =>
      obtain ⟨a, b⟩ := hd
      by_cases h1 : a = k
      · subst h1; simp [minsert, mcontains, mlookup]
      · simp only [minsert, if_neg h1, List.length_cons, ih]
        by_cases h2 : mcontains tl k = true <;>
          simp [mcontains, mlookup, h1] at h2 ⊢ <;> simp [h2]

theorem oor_assoc {α : Type} (a b c : Option α) :
    oor (oor a b) c = oor a (oor b c) := by
  cases a <;> cases b <;> simp [oor]

theorem oor_none_left {α : Type} (b : Option α) : oor none b = b := rfl

theorem oor_some_left {α : Type} (a : α) (b : Option α) :
    oor (some a) b = some a := rfl

theorem findSome?_append_oor {α β : Type} (f : α → Option β)
    (l₁ l₂ : List α) :
    List.findSome? f (l₁ ++ l₂) =
      oor (List.findSome? f l₁) (List.findSome? f l₂) := by
  induction l₁ with
  | nil => simp [oor]
  | cons hd tl ih =>
      cases h : f hd <;> simp [List.findSome?_cons, h, oor, ih]

theorem findSome?_isSome_iff {α β : Type} (f : α → Option β) (l : List α) :
    (List.findSome? f l).isSome = true ↔ ∃ a ∈ l, (f a).isSome = true := by
  induction l with
  | nil => simp
  | cons hd tl ih =>
      cases h : f hd <;> simp [List.findSome?_cons, h, ih]

theorem loadWal_append (rs : List WalRecord) (r : WalRecord) :
    loadWal (rs ++ [r]) = applyRecord (loadWal rs) r := by
  simp [loadWal]

theorem oor_none_right {α : Type} (a : Option α) : oor a none = a := by
  cases a <;> rfl

theorem mcontains_append {α : Type} (m₁ m₂ : List (Nat × α)) (k : Nat) :
    mcontains (m₁ ++ m₂) k = (mcontains m₁ k || mcontains m₂ k) := by
  simp only [mcontains, mlookup_append]
  cases h : mlookup m₁ k <;> simp

theorem applyRecord_vectors_lookup (s : ReplayState) (r : WalRecord)
    (id : NodeId) :
    mlookup (applyRecord s r).vectors id =
      oor (relevantVec r id) (mlookup s.vectors id) := by
  cases r with
  | node data =>
      by_cases he : data.embedding = []
      · simp [applyRecord, relevantVec, he, oor]
      · by_cases hid : data.id = id
        · subst hid
          simp [applyRecord, relevantVec, he, mlookup_minsert_self, oor]
        · simp [applyRecord, relevantVec, he, hid,
            mlookup_minsert_ne _ _ _ _ hid, oor]
  | edge efrom eto ty => simp [applyRecord, relevantVec, oor]
  | embedding i v =>
      by_cases hid : i = id
      · subst hid
        simp [applyRecord, relevantVec, mlookup_minsert_self, oor]
      · simp [applyRecord, relevantVec, hid,
          mlookup_minsert_ne _ _ _ _ hid, oor]
  | decision d => simp [applyRecord, relevantVec, oor]

theorem authoritativeVec_cons (r : WalRecord) (rest : List WalRecord)
    (id : NodeId) :
    authoritativeVec (r :: rest) id =
      oor (authoritativeVec rest id) (relevantVec r id) := by
  simp only [authoritativeVec, List.reverse_cons, findSome?_append_oor]
  cases h : relevantVec r id <;> simp [List.findSome?, h, oor, oor_none_right]

theorem loadWal_vectors_lookup_aux (rs : List WalRecord) :
    ∀ (s : ReplayState) (id : NodeId),
      mlookup (rs.foldl applyRecord s).vectors id =
        oor (authoritativeVec rs id) (mlookup s.vectors id) := by
  induction rs with
  | nil => intro s id; simp [authoritativeVec, oor]
  | cons r rest ih =>
      intro s id
      simp only [List.foldl_cons]
      rw [ih, applyRecord_vectors_lookup, authoritativeVec_cons, oor_assoc]

theorem loadWal_vectors_lookup (rs : List WalRecord) (id : NodeId) :
    mlookup (loadWal rs).vectors id = authoritativeVec rs id := by
  have h := loadWal_vectors_lookup_aux rs ReplayState.empty id
  simpa [loadWal, ReplayState.empty, mlookup, oor_none_right] using h

theorem applyRecord_vectors_nodup {s : ReplayState} (r : WalRecord)
    (h : (mkeys s.vectors).Nodup) :
    (mkeys (applyRecord s r).vectors).Nodup := by
  cases r with
  | node data =>
      by_cases he : data.embedding = []
      · simpa [applyRecord, he] using h
      · simpa [applyRecord, he] using mkeys_nodup_minsert _ _ h
  | edge efrom eto ty => simpa [applyRecord] using h
  | embedding i v => simpa [applyRecord] using mkeys_nodup_minsert _ _ h
  | decision d => simpa [applyRecord] using h

theorem loadWal_vectors_nodup_aux (rs : List WalRecord) :
    ∀ s : ReplayState, (mkeys s.vectors).Nodup →
      (mkeys ((rs.foldl applyRecord s)).vectors).Nodup := by
  induction rs with
  | nil => intro s h; simpa using h
  | cons r rest ih =>
      intro s h
      simpa using ih _ (applyRecord_vectors_nodup r h)

theorem loadWal_vectors_nodup (rs : List WalRecord) :
    (mkeys (loadWal rs).vectors).Nodup :=
  loadWal_vectors_nodup_aux rs ReplayState.empty (by simp [ReplayState.empty, mkeys])

theorem applyRecord_nodes_emb_inv {s : ReplayState} (r : WalRecord)
    (h : ∀ p ∈ s.nodes, p.2.embedding ≠ [] → mcontains s.vectors p.1 = true) :
    ∀ p ∈ (applyRecord s r).nodes, p.2.embedding ≠ [] →
      mcontains (applyRecord s r).vectors p.1 = true := by
  cases r with
  | node data =>
      intro p hp hne
      simp only [applyRecord] at hp ⊢
      rcases mem_minsert hp with hp' | hp'
      · have hold := h p hp' hne
        by_cases he : data.embedding = []
        · simpa [he] using hold
        · simpa [he] using mcontains_minsert_of _ _ hold
      · subst hp'
        simp only at hne
        simp [if_neg hne, mcontains_minsert_self]
  | edge efrom eto ty =>
      intro p hp hne
      simp only [applyRecord] at hp ⊢
      exact h p hp hne
  | embedding i v =>
      intro p hp hne
      simp only [applyRecord] at hp ⊢
      cases hl : mlookup s.nodes i with
      | none =>
          rw [hl] at hp
          exact mcontains_minsert_of _ _ (h p hp hne)
      | some n =>
          rw [hl] at hp
          rcases mem_minsert hp with hp' | hp'
          · exact mcontains_minsert_of _ _ (h p hp' hne)
          · subst hp'
            simp [mcontains_minsert_self]
  | decision d =>
      intro p hp hne
      simp only [applyRecord] at hp ⊢
      exact h p hp hne

theorem loadWal_nodes_emb_inv_aux (rs : List WalRecord) :
    ∀ s : ReplayState,
      (∀ p ∈ s.nodes, p.2.embedding ≠ [] → mcontains s.vectors p.1 = true) →
      ∀ p ∈ (rs.foldl applyRecord s).nodes, p.2.embedding ≠ [] →
        mcontains (rs.foldl applyRecord s).vectors p.1 = true := by
  induction rs with
  | nil => intro s h; simpa using h
  | cons r rest ih =>
      intro s h
      simpa using ih _ (applyRecord_nodes_emb_inv r h)

theorem loadWal_nodes_emb_inv (rs : List WalRecord) :
    ∀ p ∈ (loadWal rs).nodes, p.2.embedding ≠ [] →
      mcontains (loadWal rs).vectors p.1 = true :=
  loadWal_nodes_emb_inv_aux rs ReplayState.empty
    (by intro p hp; simp [ReplayState.empty] at hp)

theorem foldl_minsert_rebuild {α : Type} (m : List (Nat × α)) :
    ∀ acc : List (Nat × α), (mkeys m).Nodup →
      (∀ k ∈ mkeys m, mcontains acc k = false) →
      m.foldl (fun idx p => minsert idx p.1 p.2) acc = acc ++ m := by
  induction m with
  | nil => intro acc _ _; simp
  | cons hd tl ih =>
      intro acc hnd hdis
      obtain ⟨k, v⟩ := hd
      simp only [List.foldl_cons]
      have hfresh : mcontains acc k = false := hdis k (by simp [mkeys])
      rw [minsert_append_fresh v hfresh]
      have hmk : mkeys ((k, v) :: tl) = k :: mkeys tl := by simp [mkeys]
      rw [hmk] at hnd hdis
      have hnd' : (mkeys tl).Nodup := (List.nodup_cons.mp hnd).2
      have hk_not : k ∉ mkeys tl := (List.nodup_cons.mp hnd).1
      rw [ih (acc ++ [(k, v)]) hnd' ?_]
      · simp
      · intro k' hk'
        rw [mcontains_append]
        have h1 : mcontains acc k' = false :=
          hdis k' (List.mem_cons_of_mem _ hk')
        have h2 : mcontains [(k, v)] k' = false := by
          have : k ≠ k' := fun h => hk_not (h ▸ hk')
          simp [mcontains, mlookup, this]
        simp [h1, h2]

theorem postpass_noop (ns : List (NodeId × GNode))
    (base : List (NodeId × List ℚ))
    (h : ∀ p ∈ ns, p.2.embedding ≠ [] → mcontains base p.1 = true) :
    ns.foldl
      (fun idx p =>
        if p.2.embedding ≠ [] ∧ mcontains idx p.1 = false then
          minsert idx p.1 p.2.embedding
        else idx)
      base = base := by
  induction ns with
  | nil => simp
  | cons hd tl ih =>
      simp only [List.foldl_cons]
      have hcond : ¬(hd.2.embedding ≠ [] ∧ mcontains base hd.1 = false) := by
        rintro ⟨hne, hc⟩
        rw [h hd (by simp) hne] at hc
        exact Bool.noConfusion hc
      rw [if_neg hcond]
      exact ih (fun p hp => h p (by simp [hp]))

theorem openVectorIndex_eq (rs : List WalRecord) :
    openVectorIndex (loadWal rs) = (loadWal rs).vectors := by
  unfold openVectorIndex
  rw [foldl_minsert_rebuild _ [] (loadWal_vectors_nodup rs)
    (by intro k _; simp [mcontains, mlookup])]
  simp only [List.nil_append]
  exact postpass_noop _ _ (loadWal_nodes_emb_inv rs)

theorem eraseMap_minsert (m : List (NodeId × GNode)) (k : NodeId) (n : GNode) :
    eraseMap (minsert m k n) = minsert (eraseMap m) k (eraseEdges n) := by
  induction m with
  | nil => simp [minsert, eraseMap]
  | cons hd tl ih =>
      obtain ⟨a, b⟩ := hd
      by_cases h : a = k <;> simp [minsert, eraseMap, h] <;>
        simpa [eraseMap] using ih

theorem mlookup_eraseMap (m : List (NodeId × GNode)) (k : NodeId) :
    mlookup (eraseMap m) k = (mlookup m k).map eraseEdges := by
  induction m with
  | nil => simp [eraseMap, mlookup]
  | cons hd tl ih =>
      obtain ⟨a, b⟩ := hd
      by_cases h : a = k <;> simp [eraseMap, mlookup, h] <;>
        simpa [eraseMap] using ih

theorem eraseEdges_setEmb (n : GNode) (v : List ℚ) :
    eraseEdges { n with embedding := v } = { eraseEdges n with embedding := v } :=
  rfl

theorem simInv_fresh : SimInv Db.fresh := by
  refine ⟨rfl, rfl, rfl, rfl, rfl⟩

theorem simInv_applyWrite {db : Db} (op : WriteOp) (h : SimInv db) :
    SimInv (applyWrite db op) := by
  obtain ⟨hq, hadj, hvec, hdec, hnodes⟩ := h
  cases op with
  | node n =>
      by_cases he : n.embedding = [] <;>
        refine ⟨?_, ?_, ?_, ?_, ?_⟩ <;>
          simp [applyWrite, applyWriteF, appendNodeF, walAppendStep,
            dbIndexInsert, hq, he, loadWal_append, applyRecord, hadj, hvec,
            hdec, eraseMap_minsert, hnodes]
  | edge efrom eto ty =>
      cases hl : mlookup db.nodes efrom with
      | none =>
          refine ⟨?_, ?_, ?_, ?_, ?_⟩ <;>
            simp [applyWrite, applyWriteF, addEdgeF, walAppendStep, hq, hl,
              loadWal_append, applyRecord, hadj, hvec, hdec, hnodes]
      | some n =>
          refine ⟨?_, ?_, ?_, ?_, ?_⟩ <;>
            simp [applyWrite, applyWriteF, addEdgeF, walAppendStep, hq, hl,
              loadWal_append, applyRecord, hadj, hvec, hdec]
          rw [eraseMap_minsert]
          have hlook : mlookup (eraseMap db.nodes) efrom =
              some (eraseEdges n) := by
            simp [mlookup_eraseMap, hl]
          have he2 : eraseEdges
              { n with edges := n.edges ++ [⟨efrom, eto, ty⟩] } =
              eraseEdges n := rfl
          rw [he2, mlookup_eq_of_minsert_eq _ _ _ hlook]
          exact hnodes
  | embedding id v =>
      have hmap : (mlookup (loadWal db.wal).nodes id).map eraseEdges =
          (mlookup db.nodes id).map eraseEdges := by
        have := congrArg (fun m => mlookup m id) hnodes
        simpa [mlookup_eraseMap] using this
      cases hn : mlookup db.nodes id with
      | none =>
          have hr : mlookup (loadWal db.wal).nodes id = none := by
            rw [hn] at hmap
            cases hy : mlookup (loadWal db.wal).nodes id with
            | none => rfl
            | some w => rw [hy] at hmap; simp at hmap
          refine ⟨?_, ?_, ?_, ?_, ?_⟩ <;>
            simp [applyWrite, applyWriteF, setEmbeddingF, walAppendStep,
              dbIndexInsert, dummyNode, hq, hn, hr, loadWal_append,
              applyRecord, hadj, hvec, hdec, hnodes]
      | some nl =>
          cases hr : mlookup (loadWal db.wal).nodes id with
          | none =>
              rw [hr, hn] at hmap
              simp at hmap
          | some nr =>
              have herase : eraseEdges nr = eraseEdges nl := by
                rw [hr, hn] at hmap
                simpa using hmap
              refine ⟨?_, ?_, ?_, ?_, ?_⟩ <;>
                simp [applyWrite, applyWriteF, setEmbeddingF, walAppendStep,
                  dbIndexInsert, dummyNode, hq, hn, hr, loadWal_append,
                  applyRecord, hadj, hvec, hdec]
              rw [eraseMap_minsert, eraseMap_minsert, eraseEdges_setEmb,
                eraseEdges_setEmb, herase, hnodes]
              simp [eraseEdges]
  | decision d =>
      refine ⟨?_, ?_, ?_, ?_, ?_⟩ <;>
        simp [applyWrite, applyWriteF, recordDecisionF,
          walAppendStepAlwaysFlush, loadWal_append, applyRecord, hadj, hvec,
          hdec, hnodes, hq]

theorem simInv_applyWrites (ops : List WriteOp) :
    ∀ db : Db, SimInv db → SimInv (applyWrites db ops) := by
  induction ops with
  | nil => intro db h; simpa [applyWrites] using h
  | cons op rest ih =>
      intro db h
      have h1 := simInv_applyWrite op h
      simpa [applyWrites] using ih _ h1

theorem applyWrite_wal (db : Db) (op : WriteOp) :
    (applyWrite db op).wal = db.wal ++ [toRecord op] := by
  cases op with
  | node n =>
      by_cases he : n.embedding = [] <;>
        cases hb : db.batchQueue <;>
          simp [applyWrite, applyWriteF, appendNodeF, walAppendStep,
            dbIndexInsert, toRecord, he, hb]
  | edge efrom eto ty =>
      cases hl : mlookup db.nodes efrom <;>
        simp [applyWrite, applyWriteF, addEdgeF, walAppendStep, toRecord, hl]
  | embedding id v =>
      cases hb : db.batchQueue <;>
        cases hl : mlookup db.nodes id <;>
          simp [applyWrite, applyWriteF, setEmbeddingF, walAppendStep,
            dbIndexInsert, dummyNode, toRecord, hb, hl]
  | decision d =>
      simp [applyWrite, applyWriteF, recordDecisionF,
        walAppendStepAlwaysFlush, toRecord]

theorem applyWrites_wal (ops : List WriteOp) :
    ∀ db : Db, (applyWrites db ops).wal = db.wal ++ ops.map toRecord := by
  induction ops with
  | nil => intro db; simp [applyWrites]
  | cons op rest ih =>
      intro db
      have h1 := applyWrite_wal db op
      simp only [applyWrites, List.foldl_cons, List.map_cons]
      rw [show List.foldl applyWrite (applyWrite db op) rest =
        applyWrites (applyWrite db op) rest from rfl, ih, h1]
      simp

/-- C1 (amended): replaying the WAL produced by a sequence of successful
writes on a fresh synchronous engine reproduces the adjacency index, the
vector index (as populated by `open`) and the decision journal exactly,
and reproduces the node table up to the nodes' embedded `edges` lists
(`add_edge` appends the edge to the in-memory copy of the source node
only; the durable record is the standalone `edge` record, so a reopened
node carries the edges it had at its last `append_node`). -/
theorem c1_reopen_refinement (ops : List WriteOp) :
    (loadWal (applyWrites Db.fresh ops).wal).adjacency =
        (applyWrites Db.fresh ops).adjacency ∧
      openVectorIndex (loadWal (applyWrites Db.fresh ops).wal) =
        (applyWrites Db.fresh ops).vectors ∧
      (loadWal (applyWrites Db.fresh ops).wal).decisions =
        (applyWrites Db.fresh ops).decisions ∧
      eraseMap (loadWal (applyWrites Db.fresh ops).wal).nodes =
        eraseMap (applyWrites Db.fresh ops).nodes := by
  obtain ⟨hq, hadj, hvec, hdec, hnodes⟩ :=
    simInv_applyWrites ops Db.fresh simInv_fresh
  exact ⟨hadj, by rw [openVectorIndex_eq]; exact hvec, hdec, hnodes⟩

/-- C1 counterexample: after `append_node` of node 1 followed by
`add_edge(1, 2, "t")`, the in-memory node table holds node 1 with the new
edge in its `edges` list, while replaying the WAL yields node 1 with an
empty `edges` list — the node tables are not equal. -/
theorem c1_counterexample :
    (loadWal (applyWrites Db.fresh
        [WriteOp.node ⟨1, "a", [], [], 0, none, []⟩,
         WriteOp.edge 1 2 "t"]).wal).nodes ≠
      (applyWrites Db.fresh
        [WriteOp.node ⟨1, "a", [], [], 0, none, []⟩,
         WriteOp.edge 1 2 "t"]).nodes := by
  decide

/-- C3: on any write path, if the WAL serialize/append/flush prologue
fails, the write returns early and every in-memory component (node table,
adjacency index, vector index, staging queue, decision journal) is exactly
what it was before the call. -/
theorem c3_memory_untouched_on_failure (f : WalFail) (db : Db)
    (op : WriteOp) (h : (applyWriteF f db op).2 = false) :
    (applyWriteF f db op).1.nodes = db.nodes ∧
      (applyWriteF f db op).1.adjacency = db.adjacency ∧
      (applyWriteF f db op).1.vectors = db.vectors ∧
      (applyWriteF f db op).1.batchQueue = db.batchQueue ∧
      (applyWriteF f db op).1.decisions = db.decisions := by
  cases op <;> cases f <;>
    cases hs : db.syncWrites <;>
      simp [applyWriteF, appendNodeF, addEdgeF, setEmbeddingF,
        recordDecisionF, walAppendStep, walAppendStepAlwaysFlush, hs]
        at h ⊢

/-- Witness for C3 at a concrete failing write. -/
theorem c3_memory_untouched_on_failure_witness :
    (applyWriteF WalFail.atWrite Db.fresh (WriteOp.embedding 1 [1])).2
        = false ∧
      ((applyWriteF WalFail.atWrite Db.fresh
            (WriteOp.embedding 1 [1])).1.nodes = Db.fresh.nodes ∧
        (applyWriteF WalFail.atWrite Db.fresh
            (WriteOp.embedding 1 [1])).1.adjacency = Db.fresh.adjacency ∧
        (applyWriteF WalFail.atWrite Db.fresh
            (WriteOp.embedding 1 [1])).1.vectors = Db.fresh.vectors ∧
        (applyWriteF WalFail.atWrite Db.fresh
            (WriteOp.embedding 1 [1])).1.batchQueue = Db.fresh.batchQueue ∧
        (applyWriteF WalFail.atWrite Db.fresh
            (WriteOp.embedding 1 [1])).1.decisions = Db.fresh.decisions) :=
  ⟨rfl, c3_memory_untouched_on_failure WalFail.atWrite Db.fresh
    (WriteOp.embedding 1 [1]) rfl⟩

theorem loadWalLinesAux_error (lines : List WalLine) :
    ∀ s : ReplayState, WalLine.bad ∈ lines →
      loadWalLinesAux s lines = Except.error () := by
  induction lines with
  | nil => intro s h; simp at h
  | cons l rest ih =>
      intro s h
      cases l with
      | blank =>
          have : WalLine.bad ∈ rest := by simpa using h
          simpa [loadWalLinesAux] using ih s this
      | good r =>
          have : WalLine.bad ∈ rest := by simpa using h
          simpa [loadWalLinesAux] using ih (applyRecord s r) this
      | bad => rfl

theorem loadWalLinesAux_ok (lines : List WalLine) :
    ∀ s : ReplayState, WalLine.bad ∉ lines →
      loadWalLinesAux s lines =
        Except.ok (List.foldl applyRecord s (goodRecords lines)) := by
  induction lines with
  | nil => intro s _; simp [loadWalLinesAux, goodRecords]
  | cons l rest ih =>
      intro s h
      cases l with
      | blank =>
          have : WalLine.bad ∉ rest := fun hm => h (by simp [hm])
          simpa [loadWalLinesAux, goodRecords] using ih s this
      | good r =>
          have : WalLine.bad ∉ rest := fun hm => h (by simp [hm])
          simpa [loadWalLinesAux, goodRecords] using ih (applyRecord s r) this
      | bad => exact absurd (by simp) h

/-- C2 (amended): during replay, a line that fails to parse aborts `open`
with a corruption error whatever its position — the final line included;
there is no tolerance for a trailing truncated line.  When every line
parses (blank lines skipped), `open` succeeds with the state obtained by
replaying the parsed records in order. -/
theorem c2_replay_corruption (lines : List WalLine) :
    (WalLine.bad ∈ lines → loadWalLines lines = Except.error ()) ∧
      (WalLine.bad ∉ lines →
        loadWalLines lines = Except.ok (loadWal (goodRecords lines))) :=
  ⟨fun h => loadWalLinesAux_error lines ReplayState.empty h,
   fun h => loadWalLinesAux_ok lines ReplayState.empty h⟩

/-- C2 counterexample: a WAL whose single (hence final) line is
unparseable makes `open` fail with a corruption error, whereas the claim
requires `open` to succeed with the replay of the preceding (here: zero)
lines. -/
theorem c2_counterexample :
    loadWalLines [WalLine.bad] = Except.error () ∧
      loadWalLines [WalLine.bad] ≠ Except.ok (loadWal (goodRecords [])) := by
  refine ⟨rfl, ?_⟩
  intro h
  exact Except.noConfusion h

/-- Witness for C2 on a concrete corrupt WAL and a concrete clean WAL. -/
theorem c2_replay_corruption_witness :
    (WalLine.bad ∈ [WalLine.bad] ∧
        loadWalLines [WalLine.bad] = Except.error ()) ∧
      (WalLine.bad ∉ [WalLine.good (WalRecord.edge 1 2 "t")] ∧
        loadWalLines [WalLine.good (WalRecord.edge 1 2 "t")] =
          Except.ok (loadWal
            (goodRecords [WalLine.good (WalRecord.edge 1 2 "t")]))) :=
  ⟨⟨by decide, (c2_replay_corruption [WalLine.bad]).1 (by decide)⟩,
   ⟨by decide, (c2_replay_corruption
      [WalLine.good (WalRecord.edge 1 2 "t")]).2 (by decide)⟩⟩

theorem latestEmbOnly_cons (r : WalRecord) (rest : List WalRecord)
    (id : NodeId) :
    latestEmbOnly (r :: rest) id =
      oor (latestEmbOnly rest id)
        (match r with
         | WalRecord.embedding i v => if i = id then some v else none
         | _ => none) := by
  cases r with
  | embedding i v =>
      simp only [latestEmbOnly, List.reverse_cons, findSome?_append_oor]
      cases h : (if i = id then (some v : Option (List ℚ)) else none) <;>
        simp [List.findSome?, h, oor_none_right]
  | node m =>
      simp [latestEmbOnly, List.reverse_cons, findSome?_append_oor,
        List.findSome?, oor_none_right]
  | edge efrom eto ty =>
      simp [latestEmbOnly, List.reverse_cons, findSome?_append_oor,
        List.findSome?, oor_none_right]
  | decision d =>
      simp [latestEmbOnly, List.reverse_cons, findSome?_append_oor,
        List.findSome?, oor_none_right]

theorem loadWal_nodes_none_aux (rs : List WalRecord) (id : NodeId) :
    ∀ s : ReplayState, mlookup s.nodes id = none →
      (∀ m, WalRecord.node m ∈ rs → m.id ≠ id) →
      mlookup ((rs.foldl applyRecord s)).nodes id = none := by
  induction rs with
  | nil => intro s hs _; simpa using hs
  | cons r rest ih =>
      intro s hs hno
      have hno' : ∀ m, WalRecord.node m ∈ rest → m.id ≠ id :=
        fun m hm => hno m (by simp [hm])
      simp only [List.foldl_cons]
      refine ih _ ?_ hno'
      cases r with
      | node m =>
          have hm : m.id ≠ id := hno m (by simp)
          simpa [applyRecord, mlookup_minsert_ne _ _ _ _ hm] using hs
      | edge efrom eto ty => simpa [applyRecord] using hs
      | embedding i v =>
          by_cases hi : i = id
          · subst hi
            simp [applyRecord, hs]
          · cases hl : mlookup s.nodes i <;>
              simp [applyRecord, hl, hs, mlookup_minsert_ne _ _ _ _ hi]
      | decision d => simpa [applyRecord] using hs

theorem loadWal_nodes_emb_fold (post : List WalRecord) (id : NodeId)
    (n : GNode) (hid : n.id = id) :
    ∀ (s : ReplayState) (e : List ℚ),
      mlookup s.nodes id = some { n with embedding := e } →
      (∀ m, WalRecord.node m ∈ post → m.id ≠ id) →
      mlookup ((post.foldl applyRecord s)).nodes id =
        some { n with embedding := (latestEmbOnly post id).getD e } := by
  induction post with
  | nil => intro s e hs _; simpa [latestEmbOnly] using hs
  | cons r rest ih =>
      intro s e hs hno
      have hno' : ∀ m, WalRecord.node m ∈ rest → m.id ≠ id :=
        fun m hm => hno m (by simp [hm])
      simp only [List.foldl_cons]
      cases r with
      | node m =>
          have hm : m.id ≠ id := hno m (by simp)
          have hs' : mlookup (applyRecord s (WalRecord.node m)).nodes id =
              some { n with embedding := e } := by
            simpa [applyRecord, mlookup_minsert_ne _ _ _ _ hm] using hs
          rw [ih _ _ hs' hno', latestEmbOnly_cons]
          simp [oor_none_right]
      | edge efrom eto ty =>
          have hs' : mlookup (applyRecord s
              (WalRecord.edge efrom eto ty)).nodes id =
              some { n with embedding := e } := by
            simpa [applyRecord] using hs
          rw [ih _ _ hs' hno', latestEmbOnly_cons]
          simp [oor_none_right]
      | embedding i v =>
          by_cases hi : i = id
          · subst hi
            have hs' : mlookup (applyRecord s
                (WalRecord.embedding i v)).nodes i =
                some { n with embedding := v } := by
              simp [applyRecord, hs, mlookup_minsert_self]
            rw [ih _ _ hs' hno', latestEmbOnly_cons]
            cases hrest : latestEmbOnly rest i <;> simp [hrest, oor]
          · have hs' : mlookup (applyRecord s
                (WalRecord.embedding i v)).nodes id =
                some { n with embedding := e } := by
              cases hl : mlookup s.nodes i <;>
                simp [applyRecord, hl, hs, mlookup_minsert_ne _ _ _ _ hi]
            rw [ih _ _ hs' hno', latestEmbOnly_cons]
            simp [hi, oor_none_right]
      | decision d =>
          have hs' : mlookup (applyRecord s (WalRecord.decision d)).nodes id =
              some { n with embedding := e } := by
            simpa [applyRecord] using hs
          rw [ih _ _ hs' hno', latestEmbOnly_cons]
          simp [oor_none_right]

/-- C4 (amended): after replay of any log, (a) the vector index holds for
each id the vector of the latest record among `embedding` records and
`node` records with non-empty embedding — a later node record with a
non-empty embedding overrides an earlier embedding record, contrary to
"latest embedding record wins"; (b) the node table holds the latest node
record with its embedding replaced by the vector of the latest `embedding`
record appearing after that node record, if any; (c) absent any node
record for the id the node table has no entry (even if embedding records
exist, in which case the vector index may still hold a vector). -/
theorem c4_authoritative_embedding (rs : List WalRecord) (id : NodeId) :
    mlookup (openVectorIndex (loadWal rs)) id = authoritativeVec rs id ∧
      (∀ (pre post : List WalRecord) (n : GNode),
        rs = pre ++ WalRecord.node n :: post → n.id = id →
        (∀ m, WalRecord.node m ∈ post → m.id ≠ id) →
        mlookup (loadWal rs).nodes id =
          some { n with
            embedding := (latestEmbOnly post id).getD n.embedding }) ∧
      ((∀ m, WalRecord.node m ∈ rs → m.id ≠ id) →
        mlookup (loadWal rs).nodes id = none) := by
  refine ⟨?_, ?_, ?_⟩
  · rw [openVectorIndex_eq]
    exact loadWal_vectors_lookup rs id
  · intro pre post n hsplit hid hno
    subst hsplit
    have hfold : loadWal (pre ++ WalRecord.node n :: post) =
        post.foldl applyRecord
          (applyRecord (loadWal pre) (WalRecord.node n)) := by
      simp [loadWal, List.foldl_append]
    rw [hfold]
    refine loadWal_nodes_emb_fold post id n hid _ n.embedding ?_ hno
    have h1 : mlookup (minsert (loadWal pre).nodes n.id n) id = some n := by
      rw [hid]; exact mlookup_minsert_self _ _ _
    simpa [applyRecord] using h1
  · intro hno
    exact loadWal_nodes_none_aux rs id ReplayState.empty rfl hno

/-- C4 counterexample: for the log [embedding(1, [1]); node(1) with
embedding [2]], the reopened vector index holds [2] for node 1 while the
claim's authoritative embedding (latest embedding record) is [1]. -/
theorem c4_counterexample :
    mlookup (openVectorIndex (loadWal
        [WalRecord.embedding 1 [1],
         WalRecord.node ⟨1, "a", [2], [], 0, none, []⟩])) 1 = some [2] ∧
      specAuthoritativeC4
        [WalRecord.embedding 1 [1],
         WalRecord.node ⟨1, "a", [2], [], 0, none, []⟩] 1 = some [1] ∧
      mlookup (openVectorIndex (loadWal
        [WalRecord.embedding 1 [1],
         WalRecord.node ⟨1, "a", [2], [], 0, none, []⟩])) 1 ≠
        specAuthoritativeC4
          [WalRecord.embedding 1 [1],
           WalRecord.node ⟨1, "a", [2], [], 0, none, []⟩] 1 := by
  refine ⟨by decide, by decide, by decide⟩

/-- Witness for C4 applying the node-table clause at a one-record log. -/
theorem c4_authoritative_embedding_witness :
    ([WalRecord.node ⟨1, "a", [5], [], 0, none, []⟩] =
        [] ++ WalRecord.node ⟨1, "a", [5], [], 0, none, []⟩ :: []) ∧
      (GNode.id ⟨1, "a", [5], [], 0, none, []⟩ = 1) ∧
      mlookup (loadWal
          [WalRecord.node ⟨1, "a", [5], [], 0, none, []⟩]).nodes 1 =
        some { (⟨1, "a", [5], [], 0, none, []⟩ : GNode) with
          embedding := (latestEmbOnly [] 1).getD [5] } :=
  ⟨rfl, rfl,
    (c4_authoritative_embedding
      [WalRecord.node ⟨1, "a", [5], [], 0, none, []⟩] 1).2.1 [] []
      ⟨1, "a", [5], [], 0, none, []⟩ rfl rfl
      (fun m hm => absurd hm (List.not_mem_nil _))⟩

theorem relevantVec_toRecord (op : WriteOp) (id : NodeId) :
    (relevantVec (toRecord op) id).isSome = true ↔ insertsVecOp op id := by
  cases op with
  | node n =>
      by_cases h : n.id = id ∧ n.embedding ≠ [] <;>
        simp [toRecord, relevantVec, insertsVecOp, h]
  | edge efrom eto ty => simp [toRecord, relevantVec, insertsVecOp]
  | embedding i v =>
      by_cases h : i = id <;> simp [toRecord, relevantVec, insertsVecOp, h]
  | decision d => simp [toRecord, relevantVec, insertsVecOp]

/-- C5 (amended): at every point after open and after any sequence of
synchronous writes, the vector index contains an entry for a node id iff
some `set_embedding` was issued for that id (with any vector, the empty
one included — `set_embedding` inserts unconditionally) or some
`append_node` for that id carried a non-empty embedding; the same holds
for the index rebuilt by re-opening the produced WAL. -/
theorem c5_vector_index_membership (ops : List WriteOp) (id : NodeId) :
    (mcontains (applyWrites Db.fresh ops).vectors id = true ↔
        ∃ op ∈ ops, insertsVecOp op id) ∧
      (mcontains (openVectorIndex
          (loadWal (applyWrites Db.fresh ops).wal)) id = true ↔
        ∃ op ∈ ops, insertsVecOp op id) := by
  have hwal : (applyWrites Db.fresh ops).wal = ops.map toRecord := by
    simpa [Db.fresh] using applyWrites_wal ops Db.fresh
  have hvec := (simInv_applyWrites ops Db.fresh simInv_fresh).2.2.1
  have hmem : mcontains (loadWal (ops.map toRecord)).vectors id = true ↔
      ∃ op ∈ ops, insertsVecOp op id := by
    rw [mcontains, loadWal_vectors_lookup, authoritativeVec,
      findSome?_isSome_iff]
    constructor
    · rintro ⟨r, hr, hsome⟩
      rw [List.mem_reverse] at hr
      obtain ⟨op, hop, rfl⟩ := List.mem_map.mp hr
      exact ⟨op, hop, (relevantVec_toRecord op id).mp hsome⟩
    · rintro ⟨op, hop, hins⟩
      exact ⟨toRecord op, List.mem_reverse.mpr (List.mem_map_of_mem _ hop),
        (relevantVec_toRecord op id).mpr hins⟩
  constructor
  · rw [← hvec, hwal]
    exact hmem
  · rw [hwal, openVectorIndex_eq]
    exact hmem

/-- C5 counterexample: `set_embedding(1, [])` inserts node 1 into the
vector index even though the latest embedding record for 1 carries an
empty vector, so the claimed iff fails. -/
theorem c5_counterexample :
    ¬(mcontains (applyWrites Db.fresh
          [WriteOp.embedding 1 []]).vectors 1 = true ↔
        specC5Contains [WriteOp.embedding 1 []] 1) := by
  intro h
  have h1 : mcontains (applyWrites Db.fresh
      [WriteOp.embedding 1 []]).vectors 1 = true := by decide
  have h2 := h.mp h1
  simp [specC5Contains, List.findSome?] at h2

theorem hnswWF_insert {s : HnswState} (id : NodeId) (v : List ℚ)
    (h : HnswWF s) : HnswWF (hnswInsert s id v) := by
  intro p hp
  simp only [hnswInsert, List.mem_append, List.mem_singleton] at hp
  rcases hp with hp | hp
  · have := h p hp
    simp only [hnswInsert]
    omega
  · subst hp
    simp [hnswInsert]

theorem hnswKnnFilter_spec (s : HnswState) (k : Nat) :
    ∀ (cands : List (Nat × ℚ)) (seen : List NodeId)
      (acc : List (NodeId × ℚ)),
      acc.map Prod.fst = seen → seen.Nodup →
      ((hnswKnnFilter s k cands seen acc).map Prod.fst).Nodup ∧
        ∀ c ∈ hnswKnnFilter s k cands seen acc,
          c ∈ acc ∨ ∃ i, (i, c.2) ∈ cands ∧
            mlookup s.internalToNode i = some c.1 ∧
            mlookup s.nodeToInternal c.1 = some i := by
  intro cands
  induction cands with
  | nil =>
      intro seen acc hmap hnodup
      refine ⟨by rw [hnswKnnFilter, hmap]; exact hnodup, ?_⟩
      intro c hc
      exact Or.inl hc
  | cons cand rest ih =>
      intro seen acc hmap hnodup
      obtain ⟨internal, d⟩ := cand
      cases h1 : mlookup s.internalToNode internal with
      | none =>
          simp only [hnswKnnFilter, h1]
          obtain ⟨ha, hb⟩ := ih seen acc hmap hnodup
          refine ⟨ha, fun c hc => ?_⟩
          rcases hb c hc with h | ⟨i, hi, hl1, hl2⟩
          · exact Or.inl h
          · exact Or.inr ⟨i, by simp [hi], hl1, hl2⟩
      | some nodeId =>
          cases h2 : mlookup s.nodeToInternal nodeId with
          | none =>
              simp only [hnswKnnFilter, h1, h2]
              obtain ⟨ha, hb⟩ := ih seen acc hmap hnodup
              refine ⟨ha, fun c hc => ?_⟩
              rcases hb c hc with h | ⟨i, hi, hl1, hl2⟩
              · exact Or.inl h
              · exact Or.inr ⟨i, by simp [hi], hl1, hl2⟩
          | some current =>
              simp only [hnswKnnFilter, h1, h2]
              by_cases h3 : current = internal ∧ nodeId ∉ seen
              · rw [if_pos h3]
                have hmap' : (acc ++ [(nodeId, d)]).map Prod.fst =
                    seen ++ [nodeId] := by simp [hmap]
                have hnodup' : (seen ++ [nodeId]).Nodup := by
                  simp [List.nodup_append, hnodup, h3.2]
                by_cases h4 : k ≤ (acc ++ [(nodeId, d)]).length
                · rw [if_pos h4]
                  refine ⟨by rw [hmap']; exact hnodup', ?_⟩
                  intro c hc
                  rcases List.mem_append.mp hc with h | h
                  · exact Or.inl h
                  · simp only [List.mem_singleton] at h
                    subst h
                    refine Or.inr ⟨internal, by simp, h1, ?_⟩
                    rw [h2, h3.1]
                · rw [if_neg h4]
                  obtain ⟨ha, hb⟩ := ih (seen ++ [nodeId])
                    (acc ++ [(nodeId, d)]) hmap' hnodup'
                  refine ⟨ha, fun c hc => ?_⟩
                  rcases hb c hc with h | ⟨i, hi, hl1, hl2⟩
                  · rcases List.mem_append.mp h with h | h
                    · exact Or.inl h
                    · simp only [List.mem_singleton] at h
                      subst h
                      refine Or.inr ⟨internal, by simp, h1, ?_⟩
                      rw [h2, h3.1]
                  · exact Or.inr ⟨i, by simp [hi], hl1, hl2⟩
              · rw [if_neg h3]
                obtain ⟨ha, hb⟩ := ih seen acc hmap hnodup
                refine ⟨ha, fun c hc => ?_⟩
                rcases hb c hc with h | ⟨i, hi, hl1, hl2⟩
                · exact Or.inl h
                · exact Or.inr ⟨i, by simp [hi], hl1, hl2⟩

/-- C6: for the HNSW shadow-update backend, once `insert(id, v1)` then
`insert(id, v2)` have been applied, any `knn` result (over any candidate
list the underlying proximity-graph search returns, assumed to report
inserted entries with their true distances) that contains `id` carries the
distance from the query to `v2` — never to `v1` or any earlier stale
entry — and contains `id` at most once (the result's node ids are
pairwise distinct). -/
theorem c6_shadow_update (s0 : HnswState) (id : NodeId) (v1 v2 : List ℚ)
    (q : List ℚ) (k : Nat) (dist : List ℚ → List ℚ → ℚ)
    (cands : List (Nat × ℚ)) (hWF : HnswWF s0)
    (hcand : ∀ c ∈ cands, ∃ v,
      (c.1, v) ∈ (hnswInsert (hnswInsert s0 id v1) id v2).entries ∧
      c.2 = dist q v) :
    (∀ c ∈ hnswKnn (hnswInsert (hnswInsert s0 id v1) id v2) cands k,
        c.1 = id → c.2 = dist q v2) ∧
      ((hnswKnn (hnswInsert (hnswInsert s0 id v1) id v2) cands k).map
        Prod.fst).Nodup := by
  obtain ⟨hnodup, hmem⟩ := hnswKnnFilter_spec
    (hnswInsert (hnswInsert s0 id v1) id v2) k cands [] [] rfl List.nodup_nil
  refine ⟨?_, hnodup⟩
  intro c hc hcid
  rcases hmem c hc with h | ⟨i, hi, hl1, hl2⟩
  · simp at h
  · rw [hcid] at hl2
    have hcur : mlookup (hnswInsert (hnswInsert s0 id v1) id
        v2).nodeToInternal id = some (s0.nextInternalId + 1) := by
      simp [hnswInsert, mlookup_minsert_self]
    rw [hcur] at hl2
    obtain rfl : i = s0.nextInternalId + 1 := by
      injection hl2 with h; exact h.symm
    obtain ⟨v, hv, hd⟩ := hcand _ hi
    simp only [hnswInsert, List.mem_append, List.mem_singleton] at hv
    rcases hv with (hv | hv) | hv
    · have := hWF _ hv
      simp at this
    · have : s0.nextInternalId + 1 = s0.nextInternalId := congrArg Prod.fst hv
      omega
    · have hveq : v = v2 := congrArg Prod.snd hv
      rw [hd, hveq]

/-- Witness for C6 at a concrete two-insert state and candidate list. -/
theorem c6_shadow_update_witness :
    HnswWF HnswState.new ∧
      (∀ c ∈ [((2 : Nat), (0 : ℚ))], ∃ v,
        (c.1, v) ∈ (hnswInsert (hnswInsert HnswState.new 1 [0]) 1
          [1]).entries ∧ c.2 = (fun _ _ => (0 : ℚ)) ([] : List ℚ) v) ∧
      ∀ c ∈ hnswKnn (hnswInsert (hnswInsert HnswState.new 1 [0]) 1 [1])
          [((2 : Nat), (0 : ℚ))] 3,
        c.1 = 1 → c.2 = (fun _ _ => (0 : ℚ)) ([] : List ℚ) [1] := by
  have hwf : HnswWF HnswState.new := by
    intro p hp
    simp [HnswState.new] at hp
  have hc : ∀ c ∈ [((2 : Nat), (0 : ℚ))], ∃ v,
      (c.1, v) ∈ (hnswInsert (hnswInsert HnswState.new 1 [0]) 1
        [1]).entries ∧ c.2 = (fun _ _ => (0 : ℚ)) ([] : List ℚ) v := by
    intro c hc
    simp only [List.mem_singleton] at hc
    subst hc
    exact ⟨[1], by decide, rfl⟩
  exact ⟨hwf, hc,
    (c6_shadow_update HnswState.new 1 [0] [1] [] 3 (fun _ _ => (0 : ℚ))
      [((2 : Nat), (0 : ℚ))] hwf hc).1⟩

/-- C10: `len()` of the HNSW backend counts distinct logical node ids:
every `insert` adds one physical entry to the underlying graph, but
`len()` grows by one only when the id was absent from the
logical-to-physical map, and a repeated `insert` for the same id leaves
`len()` unchanged. -/
theorem c10_len_counts_logical_ids (s : HnswState) (id : NodeId)
    (v v' : List ℚ) :
    (hnswInsert s id v).entries.length = s.entries.length + 1 ∧
      hnswLen (hnswInsert s id v) =
        (if mcontains s.nodeToInternal id = true then hnswLen s
         else hnswLen s + 1) ∧
      hnswLen (hnswInsert (hnswInsert s id v) id v') =
        hnswLen (hnswInsert s id v) := by
  refine ⟨by simp [hnswInsert], ?_, ?_⟩
  · simp [hnswLen, hnswInsert, minsert_length]
  · simp [hnswLen, hnswInsert, minsert_length, mcontains_minsert_self]

theorem bfsVisit_cons (depth : Nat) (p : List NodeId × List (NodeId × Nat))
    (nb : NodeId) (rest : List NodeId) :
    bfsVisit depth p (nb :: rest) =
      bfsVisit depth
        (if nb ∈ p.1 then p else (p.1 ++ [nb], p.2 ++ [(nb, depth + 1)]))
        rest := by
  by_cases h : nb ∈ p.1 <;> simp [bfsVisit, h]

theorem bfsVisit_spec (depth : Nat) (nbs : List NodeId) :
    ∀ p : List NodeId × List (NodeId × Nat),
      ∃ newV newQ,
        (bfsVisit depth p nbs).1 = p.1 ++ newV ∧
        (bfsVisit depth p nbs).2 = p.2 ++ newQ ∧
        newQ.map Prod.fst = newV ∧
        (∀ e ∈ newQ, e.2 = depth + 1 ∧ e.1 ∈ nbs) ∧
        (p.1.Nodup → (p.1 ++ newV).Nodup) := by
  induction nbs with
  | nil =>
      intro p
      exact ⟨[], [], by simp [bfsVisit], by simp [bfsVisit], rfl, by simp,
        by simpa using id⟩
  | cons nb rest ih =>
      intro p
      rw [bfsVisit_cons]
      by_cases hmem : nb ∈ p.1
      · rw [if_pos hmem]
        obtain ⟨newV, newQ, h1, h2, h3, h4, h5⟩ := ih p
        exact ⟨newV, newQ, h1, h2, h3,
          fun e he => ⟨(h4 e he).1, by simp [(h4 e he).2]⟩, h5⟩
      · rw [if_neg hmem]
        obtain ⟨newV, newQ, h1, h2, h3, h4, h5⟩ :=
          ih (p.1 ++ [nb], p.2 ++ [(nb, depth + 1)])
        refine ⟨nb :: newV, (nb, depth + 1) :: newQ, ?_, ?_, ?_, ?_, ?_⟩
        · simpa [List.append_assoc] using h1
        · simpa [List.append_assoc] using h2
        · simp [h3]
        · intro e he
          rcases List.mem_cons.mp he with he | he
          · subst he; exact ⟨rfl, by simp⟩
          · exact ⟨(h4 e he).1, by simp [(h4 e he).2]⟩
        · intro hp
          have hnd : (p.1 ++ [nb]).Nodup := by
            simp [List.nodup_append, hp, hmem]
          have := h5 hnd
          simpa [List.append_assoc] using this

theorem bfsAux_inv (adj : List (NodeId × List NodeId)) (start : NodeId)
    (maxHops : Nat) :
    ∀ (fuel : Nat) (queue : List (NodeId × Nat)) (visited : List NodeId),
      (∀ e ∈ queue, e.2 ≤ maxHops ∧ ReachK adj start e.1 e.2) →
      (∀ x ∈ visited, ∃ d, d ≤ maxHops ∧ ReachK adj start x d) →
      visited.Nodup →
      (∃ ext, bfsAux adj maxHops fuel queue visited = visited ++ ext) ∧
        (bfsAux adj maxHops fuel queue visited).Nodup ∧
        ∀ x ∈ bfsAux adj maxHops fuel queue visited,
          ∃ d, d ≤ maxHops ∧ ReachK adj start x d := by
  intro fuel
  induction fuel with
  | zero =>
      intro queue visited _ hv hnd
      exact ⟨⟨[], by simp [bfsAux]⟩, by simpa [bfsAux] using hnd,
        by simpa [bfsAux] using hv⟩
  | succ fuel ih =>
      intro queue visited hq hv hnd
      cases queue with
      | nil =>
          exact ⟨⟨[], by simp [bfsAux]⟩, by simpa [bfsAux] using hnd,
            by simpa [bfsAux] using hv⟩
      | cons e rest =>
          obtain ⟨current, depth⟩ := e
          have hrest : ∀ e ∈ rest, e.2 ≤ maxHops ∧ ReachK adj start e.1 e.2 :=
            fun e he => hq e (by simp [he])
          by_cases hd : maxHops ≤ depth
          · rw [show bfsAux adj maxHops (fuel + 1)
                ((current, depth) :: rest) visited =
                bfsAux adj maxHops fuel rest visited from by
              rw [bfsAux, if_pos hd]]
            exact ih rest visited hrest hv hnd
          · cases hl : mlookup adj current with
            | none =>
                rw [show bfsAux adj maxHops (fuel + 1)
                    ((current, depth) :: rest) visited =
                    bfsAux adj maxHops fuel rest visited from by
                  rw [bfsAux, if_neg hd, hl]]
                exact ih rest visited hrest hv hnd
            | some nbs =>
                rw [show bfsAux adj maxHops (fuel + 1)
                    ((current, depth) :: rest) visited =
                    bfsAux adj maxHops fuel
                      (rest ++ (bfsVisit depth (visited, []) nbs).2)
                      (bfsVisit depth (visited, []) nbs).1 from by
                  rw [bfsAux, if_neg hd, hl]]
                obtain ⟨newV, newQ, h1, h2, h3, h4, h5⟩ :=
                  bfsVisit_spec depth nbs (visited, [])
                simp only at h1 h2
                have hcur : ReachK adj start current depth :=
                  (hq (current, depth) (by simp)).2
                have hstep : ∀ e ∈ newQ, e.2 ≤ maxHops ∧
                    ReachK adj start e.1 e.2 := by
                  intro e he
                  obtain ⟨he2, he1⟩ := h4 e he
                  refine ⟨by omega, ?_⟩
                  rw [he2]
                  exact ReachK.succ hcur hl he1
                have hq' : ∀ e ∈ rest ++ newQ,
                    e.2 ≤ maxHops ∧ ReachK adj start e.1 e.2 := by
                  intro e he
                  rcases List.mem_append.mp he with he | he
                  · exact hrest e he
                  · exact hstep e he
                have hv' : ∀ x ∈ visited ++ newV,
                    ∃ d, d ≤ maxHops ∧ ReachK adj start x d := by
                  intro x hx
                  rcases List.mem_append.mp hx with hx | hx
                  · exact hv x hx
                  · rw [← h3] at hx
                    obtain ⟨e, he, rfl⟩ := List.mem_map.mp hx
                    exact ⟨e.2, (hstep e he).1, (hstep e he).2⟩
                have hnd' : (visited ++ newV).Nodup := h5 hnd
                rw [h2, h1]
                simp only [List.nil_append]
                obtain ⟨⟨ext, hext⟩, hbnd, hbr⟩ :=
                  ih (rest ++ newQ) (visited ++ newV) hq' hv' hnd'
                refine ⟨⟨newV ++ ext, ?_⟩, hbnd, hbr⟩
                rw [hext, List.append_assoc]

/-- C7: `bfs_hops(start, max_hops)` returns the empty sequence when
`start` is known to neither the node table nor the adjacency index;
otherwise its first element is `start` (also when `max_hops = 0`), no
element appears twice, and every element is reachable from `start` by a
directed path of at most `max_hops` adjacency edges.  (Expansion order and
the depth cut-off are fixed by the definition of `bfsAux`, which expands
neighbors in stored list order and skips nodes popped at depth
`max_hops`.) -/
theorem c7_bfs_hops (nodes : List (NodeId × GNode))
    (adj : List (NodeId × List NodeId)) (start : NodeId) (maxHops : Nat) :
    (mcontains nodes start = false ∧ mcontains adj start = false →
        bfs_hops nodes adj start maxHops = []) ∧
      (¬(mcontains nodes start = false ∧ mcontains adj start = false) →
        (bfs_hops nodes adj start maxHops).head? = some start ∧
          (bfs_hops nodes adj start maxHops).Nodup ∧
          ∀ x ∈ bfs_hops nodes adj start maxHops,
            ∃ d, d ≤ maxHops ∧ ReachK adj start x d) := by
  constructor
  · intro h
    rw [bfs_hops, if_pos h]
  · intro h
    rw [bfs_hops, if_neg h]
    obtain ⟨⟨ext, hext⟩, hnd, hr⟩ :=
      bfsAux_inv adj start maxHops (2 + totalAdjLen adj) [(start, 0)] [start]
        (by intro e he; simp at he; subst he
            exact ⟨by omega, ReachK.zero⟩)
        (by intro x hx; simp at hx; subst hx
            exact ⟨0, by omega, ReachK.zero⟩)
        (by simp)
    refine ⟨?_, hnd, hr⟩
    rw [hext]
    rfl

/-- Witness for C7 on a concrete one-edge graph. -/
theorem c7_bfs_hops_witness :
    ¬(mcontains ([] : List (NodeId × GNode)) 1 = false ∧
        mcontains [((1 : Nat), [(2 : Nat)])] 1 = false) ∧
      ((bfs_hops [] [((1 : Nat), [(2 : Nat)])] 1 1).head? = some 1 ∧
        (bfs_hops [] [((1 : Nat), [(2 : Nat)])] 1 1).Nodup ∧
        ∀ x ∈ bfs_hops [] [((1 : Nat), [(2 : Nat)])] 1 1,
          ∃ d, d ≤ 1 ∧ ReachK [((1 : Nat), [(2 : Nat)])] 1 x d) :=
  ⟨by decide, (c7_bfs_hops [] [((1 : Nat), [(2 : Nat)])] 1 1).2 (by decide)⟩

theorem l2_distance_nonneg (a b : List ℝ) : 0 ≤ l2_distance a b :=
  Real.sqrt_nonneg _

/-- C9: the exact backend's `knn` returns a `k`-prefix of an
ascending-by-distance permutation of exactly the stored pairs whose
vector length matches the query's, each paired with its L2 distance to
the query; an empty index or `k = 0` yields the empty sequence. -/
theorem c9_linear_knn (vectors : List (NodeId × List ℝ)) (query : List ℝ)
    (k : Nat) :
    (∃ l : List (NodeId × ℝ),
        l.Perm ((vectors.filter
            (fun p => p.2.length = query.length)).map
          (fun p => (p.1, l2_distance query p.2))) ∧
        List.Sorted (fun a b : NodeId × ℝ => a.2 ≤ b.2) l ∧
        linearKnn vectors query k = l.take k) ∧
      (∀ x ∈ linearKnn vectors query k,
        x ∈ (vectors.filter (fun p => p.2.length = query.length)).map
          (fun p => (p.1, l2_distance query p.2))) ∧
      (linearKnn vectors query k).length =
        min k ((vectors.filter
          (fun p => p.2.length = query.length)).map
            (fun p => (p.1, l2_distance query p.2))).length ∧
      linearKnn ([] : List (NodeId × List ℝ)) query k = [] ∧
      linearKnn vectors query 0 = [] := by
  haveI htot : IsTotal (NodeId × ℝ) (fun a b => a.2 ≤ b.2) :=
    ⟨fun a b => le_total a.2 b.2⟩
  haveI htrans : IsTrans (NodeId × ℝ) (fun a b => a.2 ≤ b.2) :=
    ⟨fun _ _ _ hab hbc => le_trans hab hbc⟩
  have hperm := List.perm_insertionSort
    (fun a b : NodeId × ℝ => a.2 ≤ b.2)
    ((vectors.filter (fun p => p.2.length = query.length)).map
      (fun p => (p.1, l2_distance query p.2)))
  have hdef : linearKnn vectors query k =
      (List.insertionSort (fun a b : NodeId × ℝ => a.2 ≤ b.2)
        ((vectors.filter (fun p => p.2.length = query.length)).map
          (fun p => (p.1, l2_distance query p.2)))).take k := rfl
  refine ⟨⟨_, hperm, List.sorted_insertionSort _ _, hdef⟩, ?_, ?_, ?_, ?_⟩
  · intro x hx
    rw [hdef] at hx
    exact hperm.mem_iff.mp (List.mem_of_mem_take hx)
  · rw [hdef, List.length_take, hperm.length_eq]
  · simp [linearKnn]
  · rw [show linearKnn vectors query 0 =
      (List.insertionSort (fun a b : NodeId × ℝ => a.2 ≤ b.2)
        ((vectors.filter (fun p => p.2.length = query.length)).map
          (fun p => (p.1, l2_distance query p.2)))).take 0 from rfl]
    simp

theorem compute_hybrid_score_bounds (d : ℝ) (g : Nat) (a b : ℝ)
    (ha : 0 ≤ a) (hb : 0 ≤ b) (hd : 0 ≤ d) :
    0 ≤ compute_hybrid_score d g ⟨a, b⟩ ∧
      compute_hybrid_score d g ⟨a, b⟩ ≤ a + b := by
  unfold compute_hybrid_score
  simp only
  have h1 : 0 ≤ 1 - min d 1 := by
    have := min_le_right d 1
    linarith
  have h2 : 1 - min d 1 ≤ 1 := by
    have : 0 ≤ min d 1 := le_min hd (by norm_num)
    linarith
  have hg0 : (0 : ℝ) < 1 + (g : ℝ) := by positivity
  have h3 : 0 ≤ 1 / (1 + (g : ℝ)) := by positivity
  have h4 : 1 / (1 + (g : ℝ)) ≤ 1 := by
    rw [div_le_one hg0]
    have : (0 : ℝ) ≤ (g : ℝ) := Nat.cast_nonneg g
    linarith
  constructor
  · have hx := mul_nonneg ha h1
    have hy := mul_nonneg hb h3
    linarith
  · have hx := mul_le_mul_of_nonneg_left h2 ha
    have hy := mul_le_mul_of_nonneg_left h4 hb
    nlinarith

/-- C8: `hybrid_query` returns at most `k` results sorted by descending
score; every result's node was visited by the BFS, carries its L2 distance
to the query and the score
`alpha * (1 - min(1, d)) + beta * 1/(1 + graph_distance)`, and nodes with
an empty embedding or a dimension mismatch are excluded; for
`alpha, beta ≥ 0` every score satisfies `0 ≤ score ≤ alpha + beta`. -/
theorem c8_hybrid_query (nodes : List (NodeId × GNode))
    (adj : List (NodeId × List NodeId)) (query : List ℝ) (start : NodeId)
    (maxHops k : Nat) (a b : ℝ) (ha : 0 ≤ a) (hb : 0 ≤ b) :
    (hybridQuery nodes adj query start maxHops k ⟨a, b⟩).length ≤ k ∧
      List.Sorted (fun x y : HybridResult => y.score ≤ x.score)
        (hybridQuery nodes adj query start maxHops k ⟨a, b⟩) ∧
      ∀ r ∈ hybridQuery nodes adj query start maxHops k ⟨a, b⟩,
        r.id ∈ (hybridBfs adj start maxHops).map Prod.fst ∧
          ∃ node, mlookup nodes r.id = some node ∧
            node.embedding ≠ [] ∧
            node.embedding.length = query.length ∧
            r.vectorDistance = l2_distance query (castVec node.embedding) ∧
            r.score = compute_hybrid_score r.vectorDistance
              r.graphDistance ⟨a, b⟩ ∧
            0 ≤ r.score ∧ r.score ≤ a + b := by
  haveI htot : IsTotal HybridResult
      (fun x y : HybridResult => y.score ≤ x.score) :=
    ⟨fun x y => le_total y.score x.score⟩
  haveI htrans : IsTrans HybridResult
      (fun x y : HybridResult => y.score ≤ x.score) :=
    ⟨fun _ _ _ hxy hyz => le_trans hyz hxy⟩
  unfold hybridQuery
  by_cases hstart : mcontains nodes start = false ∧ mcontains adj start = false
  · rw [if_pos hstart]
    exact ⟨by simp, by simp, by simp⟩
  · rw [if_neg hstart]
    refine ⟨?_, ?_, ?_⟩
    · simp [List.length_take]
    · exact List.Pairwise.sublist (List.take_sublist _ _)
        (List.sorted_insertionSort _ _)
    · intro r hr
      have hr1 := (List.take_sublist _ _).subset hr
      have hr2 := (List.perm_insertionSort _ _).mem_iff.mp hr1
      obtain ⟨p, hp, hf⟩ := List.mem_filterMap.mp hr2
      cases hm : mlookup nodes p.1 with
      | none =>
          simp only [hm] at hf
          exact Option.noConfusion hf
      | some node =>
          simp only [hm] at hf
          by_cases hemp : node.embedding = []
          · rw [if_pos hemp] at hf
            exact absurd hf (by simp)
          · rw [if_neg hemp] at hf
            by_cases hlen : node.embedding.length ≠ query.length
            · rw [if_pos hlen] at hf
              exact absurd hf (by simp)
            · rw [if_neg hlen] at hf
              push_neg at hlen
              have hreq := Option.some.inj hf
              subst hreq
              have hd := l2_distance_nonneg query (castVec node.embedding)
              obtain ⟨hs0, hs1⟩ := compute_hybrid_score_bounds
                (l2_distance query (castVec node.embedding)) p.2.1 a b ha hb hd
              exact ⟨List.mem_map_of_mem Prod.fst hp,
                node, hm, hemp, hlen, rfl, rfl, hs0, hs1⟩

/-- Witness for C8 at concrete weights and a concrete (empty) graph. -/
theorem c8_hybrid_query_witness :
    (0 : ℝ) ≤ 1 ∧ (0 : ℝ) ≤ 2 ∧
      ((hybridQuery [] [] [] 1 0 0 ⟨1, 2⟩).length ≤ 0 ∧
        List.Sorted (fun x y : HybridResult => y.score ≤ x.score)
          (hybridQuery [] [] [] 1 0 0 ⟨1, 2⟩) ∧
        ∀ r ∈ hybridQuery ([] : List (NodeId × GNode))
            ([] : List (NodeId × List NodeId)) ([] : List ℝ) 1 0 0 ⟨1, 2⟩,
          r.id ∈ (hybridBfs [] 1 0).map Prod.fst ∧
            ∃ node, mlookup ([] : List (NodeId × GNode)) r.id = some node ∧
              node.embedding ≠ [] ∧
              node.embedding.length = ([] : List ℝ).length ∧
              r.vectorDistance =
                l2_distance [] (castVec node.embedding) ∧
              r.score = compute_hybrid_score r.vectorDistance
                r.graphDistance ⟨1, 2⟩ ∧
              0 ≤ r.score ∧ r.score ≤ 1 + 2) :=
  ⟨by norm_num, by norm_num,
    c8_hybrid_query [] [] [] 1 0 0 1 2 (by norm_num) (by norm_num)⟩
